import Mathlib

/-!
# Synthetic Signal Observatory — verification development

A shallow embedding of the core of the `synthetic_signal_observatory`
package (generator, DuckDB persistence helpers, rolling-metrics analytics
and the application-service lookback resolver), together with theorems
checking the natural-language specification against it.

Modelling conventions
---------------------

* Python `datetime` values are modelled by `Timestamp`: an absolute instant
  in microseconds since the epoch together with an optional UTC-offset tag.
  A `none` offset models a naive (timezone-unaware) datetime; `some 0`
  models a UTC-aware datetime.  `astimezone(UTC)` on an aware datetime
  keeps the instant and sets the offset tag to `some 0`; comparisons of
  aware datetimes compare instants.
* Python floats are modelled by `ℚ` with exact arithmetic.  The only
  non-rational quantity in the source is `rolling_std = sqrt(variance)`
  (and the derived `z_score`); the embedded `RollingMetricRow` therefore
  carries the exact `rolling_var` (the variance, `rolling_std ^ 2`) in the
  place of `rolling_std`/`z_score`, and theorems about the standard
  deviation and z-score are stated over `ℝ` via `Real.sqrt` of that field.
  `rolling_std` is null in the source exactly when `rolling_var` is none
  here, and `rolling_std == 0.0` exactly when the variance is `0`.
* `random.Random(seed)` is modelled as a draw oracle obtained from the
  seed alone: a `RandomSource` giving, for each loop iteration, the
  128-bit draw used for the event id, the two choice indices, the Gaussian
  draw and the uniform draw.  The Mersenne-Twister internals are not
  modelled; no claim depends on the concrete values drawn.  Likewise the
  sha256-derived per-signal base value is an abstract function
  `String → ℚ`.  Both are packaged in a `GeneratorEnv` over which all
  generator theorems quantify.
* The DuckDB store is a `DuckDB` value: whether the database file exists,
  whether the `synthetic_events` table exists, and the stored rows in
  insertion order.  `ORDER BY event_ts DESC` is modelled by a stable
  insertion sort on the instant (the SQL engine leaves tie order
  unspecified; the claims that depend on order assume distinct
  timestamps).
-/

/-- A Python `datetime`: absolute instant in microseconds since the epoch
plus an optional timezone offset tag (`none` = naive). -/
structure Timestamp where
  instant : Int
  offset : Option Int
  deriving DecidableEq, Repr

/-- Python's `tzinfo is not None and utcoffset() is not None`. -/
def Timestamp.isAware (t : Timestamp) : Bool :=
  t.offset.isSome

/-- Conversion `astimezone(UTC)` on an aware datetime: same instant, offset pinned to
UTC.  (Naive datetimes never reach this operation in the modelled code:
every call site validates awareness first.) -/
def Timestamp.toUTC (t : Timestamp) : Timestamp :=
  { instant := t.instant, offset := some 0 }

/-- Microseconds per day, used to derive the UTC calendar date. -/
def usPerDay : Int := 86400000000

/-- A raw synthetic event (`SyntheticEvent` dataclass). -/
structure SyntheticEvent where
  event_id : String
  event_ts : Timestamp
  source_id : String
  signal_name : String
  signal_value : ℚ
  quality_score : ℚ
  run_id : String
  deriving DecidableEq, Repr

/-- A normalized synthetic event (`NormalizedSyntheticEvent` dataclass).
`event_date` is the UTC calendar day index (floor of the instant divided
by the microseconds in a day), standing for the Python `date`. -/
structure NormalizedSyntheticEvent where
  event_id : String
  event_ts_utc : Timestamp
  event_date : Int
  source_id : String
  signal_name : String
  signal_value : ℚ
  quality_score : ℚ
  run_id : String
  deriving DecidableEq, Repr

/-- Function `normalize_synthetic_event`: validates the raw event and enforces the
store-boundary invariants (non-empty id, timezone-aware timestamp
normalized to UTC, quality score clamped to `[0, 1]`). -/
def normalizeSyntheticEvent (e : SyntheticEvent) :
    Except String NormalizedSyntheticEvent :=
  if e.event_id = "" then
    .error "event_id must be a non-empty string"
  else if e.event_ts.isAware = false then
    .error "event_ts must be timezone-aware"
  else
    .ok
      { event_id := e.event_id
        event_ts_utc := e.event_ts.toUTC
        event_date := e.event_ts.instant.fdiv usPerDay
        source_id := e.source_id
        signal_name := e.signal_name
        signal_value := e.signal_value
        quality_score := min 1 (max 0 e.quality_score)
        run_id := e.run_id }

/-- The grouping key `(source_id, signal_name)` of an event. -/
def evtKey (e : NormalizedSyntheticEvent) : String × String :=
  (e.source_id, e.signal_name)

/-- Ascending comparison on event timestamps (the `sorted` key used by the
analytics layer; aware datetimes compare by instant). -/
def tsLeAsc (a b : NormalizedSyntheticEvent) : Prop :=
  a.event_ts_utc.instant ≤ b.event_ts_utc.instant

/-- Descending comparison on event timestamps (`ORDER BY event_ts DESC`). -/
def tsLeDesc (a b : NormalizedSyntheticEvent) : Prop :=
  b.event_ts_utc.instant ≤ a.event_ts_utc.instant

instance : DecidableRel tsLeAsc := fun a b =>
  Int.decLe a.event_ts_utc.instant b.event_ts_utc.instant

instance : DecidableRel tsLeDesc := fun a b =>
  Int.decLe b.event_ts_utc.instant a.event_ts_utc.instant

instance : IsTotal NormalizedSyntheticEvent tsLeAsc :=
  ⟨fun a b => Int.le_total a.event_ts_utc.instant b.event_ts_utc.instant⟩

instance : IsTrans NormalizedSyntheticEvent tsLeAsc :=
  ⟨fun _ _ _ hab hbc => Int.le_trans hab hbc⟩

instance : IsTotal NormalizedSyntheticEvent tsLeDesc :=
  ⟨fun a b => Int.le_total b.event_ts_utc.instant a.event_ts_utc.instant⟩

instance : IsTrans NormalizedSyntheticEvent tsLeDesc :=
  ⟨fun _ _ _ hab hbc => Int.le_trans hbc hab⟩

/-- Python's `sorted(events, key=lambda e: e.event_ts_utc)` (a stable sort). -/
def sortEventsAsc (l : List NormalizedSyntheticEvent) :
    List NormalizedSyntheticEvent :=
  l.insertionSort tsLeAsc

/-- The rows of `ORDER BY event_ts DESC`. -/
def sortEventsDesc (l : List NormalizedSyntheticEvent) :
    List NormalizedSyntheticEvent :=
  l.insertionSort tsLeDesc

/-- The DuckDB store: file/table existence plus the persisted rows in
insertion order. -/
structure DuckDB where
  fileExists : Bool
  tableExists : Bool
  rows : List NormalizedSyntheticEvent
  deriving DecidableEq, Repr

/-- The per-row conversion applied by `fetch_synthetic_events`
(`row.astimezone(UTC)` on the stored timestamp). -/
def rowToUTC (e : NormalizedSyntheticEvent) : NormalizedSyntheticEvent :=
  { e with event_ts_utc := e.event_ts_utc.toUTC }

/-- Function `fetch_synthetic_events`: returns `[]` when the database file or the
`synthetic_events` table is missing, or when an explicit non-positive
limit is given; otherwise the newest `limit` rows (all rows when no limit
is given), newest first, timestamps converted to UTC. -/
def fetchSyntheticEvents (db : DuckDB) (limit : Option Int) :
    List NormalizedSyntheticEvent :=
  if db.fileExists = false then []
  else if db.tableExists = false then []
  else
    match limit with
    | none => (sortEventsDesc db.rows).map rowToUTC
    | some n =>
      if n ≤ 0 then []
      else ((sortEventsDesc db.rows).take n.toNat).map rowToUTC

/-- The list comprehension `[normalize_synthetic_event(e) for e in events]`:
normalizes every event, aborting with the first validation error. -/
def normalizeAll :
    List SyntheticEvent → Except String (List NormalizedSyntheticEvent)
  | [] => .ok []
  | e :: rest =>
    match normalizeSyntheticEvent e with
    | .error msg => .error msg
    | .ok n =>
      match normalizeAll rest with
      | .error msg => .error msg
      | .ok ns => .ok (n :: ns)

/-- Function `append_synthetic_events`: no-op on an empty batch; otherwise
normalizes every event (aborting with the first validation error, before
anything is persisted) and appends the normalized rows, creating the
database file and table if needed.  Returns the updated store and the
inserted count. -/
def appendSyntheticEvents (db : DuckDB) (events : List SyntheticEvent) :
    Except String (DuckDB × Int) :=
  if events = [] then .ok (db, 0)
  else
    match normalizeAll events with
    | .error msg => .error msg
    | .ok normalized =>
      .ok
        ({ fileExists := true
           tableExists := true
           rows := db.rows ++ normalized },
          (events.length : Int))

/-- Modelled from the spec: `reset_synthetic_events_table` is imported by
the repository's tests and UI but its definition is not among the given
sources.  Per the spec's store contract (`reset()`: destructively clears
all persisted events; idempotent, safe to call when no data exists) and
the test (`DROP TABLE IF EXISTS` semantics), it drops the table and its
rows and never fails. -/
def resetSyntheticEventsTable (db : DuckDB) : Except String DuckDB :=
  .ok { db with tableExists := false, rows := [] }

/-! ## Analytics (`compute_rolling_metrics`) -/

/-- Rolling metrics for a single event.  The source row stores
`rolling_std` (a float, `sqrt` of the population variance) and `z_score`
(`(signal_value - rolling_mean) / rolling_std`, or `0.0` on a flat
window); both are irrational in general, so the embedded row carries the
exact variance `rolling_var` instead (`rolling_std` is determined as
`Real.sqrt rolling_var`, null iff `rolling_var` is none), and theorems
state the std/z-score facts over `ℝ`. -/
structure RollingMetricRow where
  event_id : String
  event_ts_utc : Timestamp
  event_date : Int
  source_id : String
  signal_name : String
  signal_value : ℚ
  quality_score : ℚ
  run_id : String
  rolling_mean : Option ℚ
  rolling_var : Option ℚ
  is_anomaly : Bool
  deriving DecidableEq, Repr

/-- The grouping key of a metric row. -/
def rowKey (r : RollingMetricRow) : String × String :=
  (r.source_id, r.signal_name)

/-- Operation `deque(maxlen=window_size).append v`: keep the last `ws` values. -/
def pushWindow (ws : ℕ) (w : List ℚ) (v : ℚ) : List ℚ :=
  (w ++ [v]).drop ((w ++ [v]).length - ws)

/-- The per-group rolling windows (`defaultdict` of deques). -/
abbrev RollingState := String × String → List ℚ

/-- Append the current event's value to its group's window (performed
after the row is produced). -/
def updState (ws : ℕ) (st : RollingState) (e : NormalizedSyntheticEvent) :
    RollingState :=
  fun k => if k = evtKey e then pushWindow ws (st (evtKey e)) e.signal_value
           else st k

/-- The anomaly flag.  The source computes
`z = (x - mean) / sqrt var` as a float and flags `abs z >= z_threshold`;
over `ℚ` this is decided by the equivalent squared comparison (for
`zt ≤ 0` the flag always holds since `|z| ≥ 0`).  Lemma
`anomalyFlag_eq_true_iff` proves it equal to the source's condition stated
over `ℝ`. -/
def anomalyFlag (zt m v x : ℚ) : Bool :=
  decide (zt ≤ 0) || decide (zt ^ 2 * v ≤ (x - m) ^ 2)

/-- Produce the metric row for one event from the current state of its
group's window (before the event's own value is pushed). -/
def mkRow (ws : ℕ) (zt : ℚ) (st : RollingState)
    (e : NormalizedSyntheticEvent) : RollingMetricRow :=
  let w := st (evtKey e)
  if w.length < ws then
    { event_id := e.event_id
      event_ts_utc := e.event_ts_utc.toUTC
      event_date := e.event_date
      source_id := e.source_id
      signal_name := e.signal_name
      signal_value := e.signal_value
      quality_score := e.quality_score
      run_id := e.run_id
      rolling_mean := none
      rolling_var := none
      is_anomaly := false }
  else
    let m := w.sum / (w.length : ℚ)
    let v := ((w.map fun x => (x - m) ^ 2).sum) / (w.length : ℚ)
    { event_id := e.event_id
      event_ts_utc := e.event_ts_utc.toUTC
      event_date := e.event_date
      source_id := e.source_id
      signal_name := e.signal_name
      signal_value := e.signal_value
      quality_score := e.quality_score
      run_id := e.run_id
      rolling_mean := some m
      rolling_var := some v
      is_anomaly := if v = 0 then false else anomalyFlag zt m v e.signal_value }

/-- The main loop of `compute_rolling_metrics` over the sorted events. -/
def rollingGo (ws : ℕ) (zt : ℚ) :
    List NormalizedSyntheticEvent → RollingState → List RollingMetricRow
  | [], _ => []
  | e :: rest, st => mkRow ws zt st e :: rollingGo ws zt rest (updState ws st e)

/-- Function `compute_rolling_metrics`. -/
def computeRollingMetrics (events : List NormalizedSyntheticEvent)
    (ws : ℕ) (zt : ℚ) : Except String (List RollingMetricRow) :=
  if ws < 1 then .error "window_size must be >= 1"
  else .ok (rollingGo ws zt (sortEventsAsc events) fun _ => [])

/-! ## Generator (`generate_synthetic_events`) -/

/-- The draw oracle standing for `random.Random(seed)`: for each loop
iteration, the 128-bit event-id draw, the two `choice` index draws, the
`normalvariate(0, 1)` draw and the `random()` draw. -/
structure RandomSource where
  bits128 : ℕ → ℕ
  srcChoice : ℕ → ℕ
  sigChoice : ℕ → ℕ
  gauss : ℕ → ℚ
  unif : ℕ → ℚ

/-- The abstracted nondeterminism of the generator: the PRNG semantics
(`random.Random` as a function of the seed) and the sha256-derived stable
per-signal base value.  Theorems quantify over this environment. -/
structure GeneratorEnv where
  rnd : Int → RandomSource
  signalBase : String → ℚ

/-- Function `generate_synthetic_events`.  Here `step` is the step `timedelta` in
microseconds; `count` is the requested number of events.  The RNG is
derived from `seed` alone (as in the source: `rng = random.Random(seed)`);
`run_id` is only copied into the emitted events. -/
def generateSyntheticEvents (env : GeneratorEnv) (count : Int)
    (start_ts : Timestamp) (run_id : String) (seed : Int)
    (source_ids signal_names : List String) (step : Int) :
    Except String (List SyntheticEvent) :=
  if count < 0 then .error "count must be >= 0"
  else if start_ts.isAware = false then .error "start_ts must be timezone-aware"
  else if run_id = "" then .error "run_id must be a non-empty string"
  else if source_ids = [] then .error "source_ids must be non-empty"
  else if signal_names = [] then .error "signal_names must be non-empty"
  else if step ≤ 0 then .error "step must be positive"
  else
    let rng := env.rnd seed
    let startUtc := start_ts.toUTC
    .ok ((List.range count.toNat).map fun i =>
      let signal_name := signal_names.getD (rng.sigChoice i % signal_names.length) ""
      { event_id := toString (rng.bits128 i % 2 ^ 128)
        event_ts := { instant := startUtc.instant + step * (i : Int), offset := some 0 }
        source_id := source_ids.getD (rng.srcChoice i % source_ids.length) ""
        signal_name := signal_name
        signal_value := env.signalBase signal_name + rng.gauss i
        quality_score := rng.unif i
        run_id := run_id })

/-! ## Application services (`get_events_for_rolling_window`) -/

/-- Accumulator of the `lookback_satisfied` helper: the per-group
1-based counts (`group_positions`) and the id-to-prior-count map
(`index_by_id`). -/
structure LbAcc where
  gp : String × String → ℕ
  idx : String → Option ℕ

/-- One step of the `lookback_satisfied` fold over the ascending-sorted
candidate events. -/
def lbStep (acc : LbAcc) (e : NormalizedSyntheticEvent) : LbAcc :=
  let key := evtKey e
  let newCount := acc.gp key + 1
  { gp := fun k => if k = key then newCount else acc.gp k
    idx := fun s => if s = e.event_id then some (newCount - 1) else acc.idx s }

/-- Predicate `lookback_satisfied`: sort the candidate set ascending, record each
event's 0-based position within its group, and require every window
event id to be present with a prior count of at least `window_size`. -/
def lookbackSatisfied (ws : Int) (windowIds : List String)
    (events : List NormalizedSyntheticEvent) : Bool :=
  let ordered := sortEventsAsc events
  let acc := ordered.foldl lbStep ⟨fun _ => 0, fun _ => none⟩
  windowIds.all fun eid =>
    match acc.idx eid with
    | none => false
    | some c => decide (ws ≤ (c : Int))

/-- The fetch-growing loop of `get_events_for_rolling_window`.  The
source loops unboundedly; here fuel counts iterations.  Each iteration
either returns or strictly grows the fetch limit toward the safety cap,
so `(cap - n₀).toNat + 1` iterations always suffice from the entry point
below and the fuel-exhaustion branch (which returns the current fetch,
like every other exit) is unreachable there. -/
def rollingFetchLoop (db : DuckDB) (wl ws cap : Int)
    (window : List NormalizedSyntheticEvent) :
    ℕ → Int → List NormalizedSyntheticEvent × List NormalizedSyntheticEvent
  | 0, n => (window, fetchSyntheticEvents db (some n))
  | fuel + 1, n =>
    let look := fetchSyntheticEvents db (some n)
    if (look.length : Int) ≤ wl then (window, look)
    else if lookbackSatisfied ws (window.map (·.event_id)) look then
      (window, look)
    else if cap ≤ n then (window, look)
    else rollingFetchLoop db wl ws cap window fuel (min cap (2 * n))

/-- Function `get_events_for_rolling_window` (with `max_fetch_limit` passed as
`cap`). -/
def getEventsForRollingWindow (db : DuckDB) (wl ws cap : Int) :
    Except String
      (List NormalizedSyntheticEvent × List NormalizedSyntheticEvent) :=
  if wl ≤ 0 then .ok ([], [])
  else if ws < 1 then .error "window_size must be >= 1"
  else
    let window := fetchSyntheticEvents db (some wl)
    if window = [] then .ok ([], [])
    else
      let n0 := min cap (wl + ws * 10)
      .ok (rollingFetchLoop db wl ws cap window ((cap - n0).toNat + 1) n0)

/-- The lookback-satisfaction predicate in the words of the claim: every
window event has at least `window_size` strictly-earlier (by timestamp)
same-group events inside the fetched set. -/
def specLookbackSatisfied (ws : Int)
    (window cand : List NormalizedSyntheticEvent) : Bool :=
  window.all fun w =>
    decide (ws ≤
      ((cand.countP fun e =>
        decide (evtKey e = evtKey w ∧
          e.event_ts_utc.instant < w.event_ts_utc.instant)) : Int))

/-- The claim's description of the fetch loop: repeatedly fetch the
newest `n` events, doubling (capped at the safety cap), until the store
is exhausted (returned count ≤ window_limit), the lookback-satisfied
predicate holds, or the fetch size has reached the safety cap; in all
cases return the window events with the final fetched superset. -/
def specFetchLoop (db : DuckDB) (wl ws cap : Int)
    (window : List NormalizedSyntheticEvent) :
    ℕ → Int → List NormalizedSyntheticEvent × List NormalizedSyntheticEvent
  | 0, n => (window, fetchSyntheticEvents db (some n))
  | fuel + 1, n =>
    let look := fetchSyntheticEvents db (some n)
    if (look.length : Int) ≤ wl then (window, look)
    else if specLookbackSatisfied ws window look then (window, look)
    else if cap ≤ n then (window, look)
    else specFetchLoop db wl ws cap window fuel (min cap (2 * n))

/-- The claim's algorithm for `get_events_for_rolling_window`, written
from the specification's words (for `window_size ≥ 1`): empty results for
a non-positive window limit or an empty store, otherwise the loop of
`specFetchLoop` from an initial fetch size of
`min(safety_cap, window_limit + window_size * 10)`. -/
def rollingWindowSpecAlg (db : DuckDB) (wl ws cap : Int) :
    List NormalizedSyntheticEvent × List NormalizedSyntheticEvent :=
  if wl ≤ 0 then ([], [])
  else
    let window := fetchSyntheticEvents db (some wl)
    if window = [] then ([], [])
    else
      let n0 := min cap (wl + ws * 10)
      specFetchLoop db wl ws cap window ((cap - n0).toNat + 1) n0

/-! ## Shared helper lemmas -/

/-- A sample normalized event used to instantiate hypotheses of claims. -/
def demoRow : NormalizedSyntheticEvent :=
  { event_id := "e1"
    event_ts_utc := { instant := 0, offset := some 0 }
    event_date := 0
    source_id := "s1"
    signal_name := "alpha"
    signal_value := 1
    quality_score := 1
    run_id := "r1" }

/-- A concrete draw oracle / signal-base environment used to instantiate
generator claims (its values are irrelevant to the claims). -/
def trivEnv : GeneratorEnv :=
  { rnd := fun _ =>
      { bits128 := fun _ => 0
        srcChoice := fun _ => 0
        sigChoice := fun _ => 0
        gauss := fun _ => 0
        unif := fun _ => 0 }
    signalBase := fun _ => 0 }

/-- The instant of 2025-12-27T12:00:00+00:00 in microseconds. -/
def tsNoon : Int := 1766836800000000

/-- The instant of 2025-12-27T12:00:00.123456+00:00 in microseconds (the
start timestamp of the repository's test
`test_generate_synthetic_events_snaps_to_whole_seconds`). -/
def tsMicro : Int := 1766836800123456

/-- The state after folding `updState` over a list of events. -/
def stateAfter (ws : ℕ) (st : RollingState)
    (l : List NormalizedSyntheticEvent) : RollingState :=
  l.foldl (updState ws) st

/-- The `signal_value`s of the events of group `k` in `l`, in order. -/
def groupValsOf (l : List NormalizedSyntheticEvent) (k : String × String) :
    List ℚ :=
  (l.filter fun e => decide (evtKey e = k)).map (·.signal_value)

/-- The last `n` elements of a list. -/
def lastN (n : ℕ) (l : List ℚ) : List ℚ :=
  l.drop (l.length - n)

/-- The claim's description of a single produced row.  `e` is the
corresponding event in ascending-timestamp order and `prior` the
`signal_value`s of the strictly prior same-group events, in processing
order; the row's window is the last `window_size` of them.  The standard
deviation `Real.sqrt v` and the z-score `(signal_value - mean) / std`
exist only over `ℝ` (see `RollingMetricRow`); when the std is zero the
source fixes `z_score = 0.0` and no anomaly, otherwise the anomaly flag
is `|z| ≥ z_threshold`. -/
def rowSpecAt (ws : ℕ) (zt : ℚ) (e : NormalizedSyntheticEvent)
    (prior : List ℚ) (r : RollingMetricRow) : Prop :=
  (r.event_id = e.event_id ∧ r.event_ts_utc = e.event_ts_utc.toUTC ∧
    r.event_date = e.event_date ∧ r.source_id = e.source_id ∧
    r.signal_name = e.signal_name ∧ r.signal_value = e.signal_value ∧
    r.quality_score = e.quality_score ∧ r.run_id = e.run_id) ∧
  (lastN ws prior).length ≤ ws ∧
  (prior.length < ws →
    r.rolling_mean = none ∧ r.rolling_var = none ∧ r.is_anomaly = false) ∧
  (ws ≤ prior.length →
    r.rolling_mean = some ((lastN ws prior).sum / (ws : ℚ)) ∧
    r.rolling_var = some
      ((((lastN ws prior).map fun x =>
        (x - (lastN ws prior).sum / (ws : ℚ)) ^ 2).sum) / (ws : ℚ)) ∧
    ∀ v, r.rolling_var = some v →
      (Real.sqrt v = 0 → r.is_anomaly = false) ∧
      (Real.sqrt v ≠ 0 →
        (r.is_anomaly = true ↔
          (zt : ℝ) ≤
            |((e.signal_value : ℝ) - (((lastN ws prior).sum / (ws : ℚ) : ℚ) : ℝ))| /
              Real.sqrt v)))

/-- The claim's contract for `compute_rolling_metrics`: one row per input
event, rows in ascending timestamp order, and each row described by
`rowSpecAt` relative to the ascending-sorted input. -/
def rollingSpecHolds (events : List NormalizedSyntheticEvent) (ws : ℕ)
    (zt : ℚ) (rows : List RollingMetricRow) : Prop :=
  rows.length = events.length ∧
  rows.Pairwise
    (fun a b => a.event_ts_utc.instant ≤ b.event_ts_utc.instant) ∧
  ∀ i (hi : i < rows.length) (hs : i < (sortEventsAsc events).length),
    rowSpecAt ws zt ((sortEventsAsc events).get ⟨i, hs⟩)
      (groupValsOf ((sortEventsAsc events).take i)
        (evtKey ((sortEventsAsc events).get ⟨i, hs⟩)))
      (rows.get ⟨i, hi⟩)

/-- The events of the spec's rolling-metrics example (values
`[10.0, 10.5, 9.5, 30.0]`, ascending timestamps, one group). -/
def demoEventsC1 : List NormalizedSyntheticEvent :=
  [{ event_id := "e0", event_ts_utc := { instant := 0, offset := some 0 },
     event_date := 0, source_id := "s1", signal_name := "alpha",
     signal_value := 10, quality_score := 1, run_id := "r1" },
   { event_id := "e1", event_ts_utc := { instant := 60000000, offset := some 0 },
     event_date := 0, source_id := "s1", signal_name := "alpha",
     signal_value := 21/2, quality_score := 1, run_id := "r1" },
   { event_id := "e2", event_ts_utc := { instant := 120000000, offset := some 0 },
     event_date := 0, source_id := "s1", signal_name := "alpha",
     signal_value := 19/2, quality_score := 1, run_id := "r1" },
   { event_id := "e3", event_ts_utc := { instant := 180000000, offset := some 0 },
     event_date := 0, source_id := "s1", signal_name := "alpha",
     signal_value := 30, quality_score := 1, run_id := "r1" }]

/-- A concrete store of 20 one-group events with distinct timestamps. -/
def demoDbC2 : DuckDB :=
  { fileExists := true
    tableExists := true
    rows := (List.range 20).map fun i =>
      { event_id := toString i
        event_ts_utc := { instant := (i : Int) * 1000000, offset := some 0 }
        event_date := 0
        source_id := "s1"
        signal_name := "alpha"
        signal_value := 1
        quality_score := 1
        run_id := "r1" } }

/-- A placeholder metric row (the `List.getD` default in witnesses). -/
def defaultMetricRow : RollingMetricRow :=
  { event_id := ""
    event_ts_utc := { instant := 0, offset := some 0 }
    event_date := 0
    source_id := ""
    signal_name := ""
    signal_value := 0
    quality_score := 0
    run_id := ""
    rolling_mean := none
    rolling_var := none
    is_anomaly := false }

/-- A successful normalization yields a UTC timestamp and a clamped
quality score. -/
theorem normalize_ok_invariants {e : SyntheticEvent}
    {n : NormalizedSyntheticEvent}
    (h : normalizeSyntheticEvent e = .ok n) :
    n.event_ts_utc.offset = some 0 ∧
    n.event_ts_utc.instant = e.event_ts.instant ∧
    0 ≤ n.quality_score ∧ n.quality_score ≤ 1 := by
  unfold normalizeSyntheticEvent at h
  split_ifs at h
  injection h with h
  subst h
  refine ⟨rfl, rfl, ?_, min_le_left _ _⟩
  exact le_min (by norm_num) (le_max_left 0 _)

/-- Every element of a successfully normalized batch is a successful
normalization of some raw event. -/
theorem normalizeAll_mem {events : List SyntheticEvent}
    {ns : List NormalizedSyntheticEvent}
    (h : normalizeAll events = .ok ns) :
    ∀ x ∈ ns, ∃ e, normalizeSyntheticEvent e = .ok x := by
  induction events generalizing ns with
  | nil =>
    unfold normalizeAll at h
    injection h with h
    subst h
    intro x hx
    exact absurd hx (List.not_mem_nil x)
  | cons e rest ih =>
    unfold normalizeAll at h
    cases h1 : normalizeSyntheticEvent e with
    | error msg => rw [h1] at h; exact Except.noConfusion h
    | ok n =>
      rw [h1] at h
      cases h2 : normalizeAll rest with
      | error msg => rw [h2] at h; exact Except.noConfusion h
      | ok ms =>
        rw [h2] at h
        injection h with h
        subst h
        intro x hx
        rcases List.mem_cons.mp hx with hx | hx
        · exact ⟨e, hx ▸ h1⟩
        · exact ih h2 x hx

/-! ## C9 — reset then fetch -/

/-- C9: for every store state, `reset()` succeeds, a subsequent `fetch()`
(with any limit) returns the empty collection, and a second `reset()`
also succeeds (idempotent, safe when no data exists). -/
theorem reset_then_fetch_empty (db : DuckDB) (limit : Option Int) :
    ∃ db', resetSyntheticEventsTable db = .ok db' ∧
      fetchSyntheticEvents db' limit = [] ∧
      ∃ db'', resetSyntheticEventsTable db' = .ok db'' := by
  refine ⟨_, rfl, ?_, _, rfl⟩
  cases hf : db.fileExists <;> simp [fetchSyntheticEvents, hf]

/-! ## C10 — fetch on a missing database or table -/

/-- C10: `fetch_synthetic_events` returns an empty list (rather than
raising) for any limit when the database file does not exist, and when
the file exists but the `synthetic_events` table does not. -/
theorem fetch_missing_db_or_table_empty :
    (∀ (db : DuckDB) (limit : Option Int), db.fileExists = false →
      fetchSyntheticEvents db limit = []) ∧
    (∀ (db : DuckDB) (limit : Option Int), db.tableExists = false →
      fetchSyntheticEvents db limit = []) := by
  constructor
  · intro db limit h
    simp [fetchSyntheticEvents, h]
  · intro db limit h
    cases hf : db.fileExists <;> simp [fetchSyntheticEvents, hf, h]

theorem fetch_missing_db_or_table_empty_witness :
    fetchSyntheticEvents ⟨false, true, [demoRow]⟩ (some 5) = [] ∧
    fetchSyntheticEvents ⟨true, false, [demoRow]⟩ none = [] :=
  ⟨fetch_missing_db_or_table_empty.1 ⟨false, true, [demoRow]⟩ (some 5) rfl,
   fetch_missing_db_or_table_empty.2 ⟨true, false, [demoRow]⟩ none rfl⟩

/-! ## C8 — normalization invariants at the store boundary -/

/-- C8 counterexample: a raw event with a timezone-aware timestamp but an
empty `event_id` is rejected by `normalize_synthetic_event` (so
normalization does not produce an event for every aware-timestamped raw
event, as the claim states). -/
theorem normalize_aware_but_empty_id_rejected :
    (normalizeSyntheticEvent
      { event_id := ""
        event_ts := { instant := 0, offset := some 0 }
        source_id := "s1"
        signal_name := "alpha"
        signal_value := 1
        quality_score := 1/2
        run_id := "r1" }).isOk = false ∧
    Timestamp.isAware { instant := 0, offset := some 0 } = true := by
  constructor <;> rfl

/-- C8 (amended: the raw event must also carry a non-empty `event_id`,
which `normalize_synthetic_event` checks before the timestamp): aware
events normalize to a UTC timestamp and a quality score clamped to
`[0, 1]` (inputs `-1` and `99` clamp to `0` and `1`), naive timestamps
are rejected, and every event persisted through `append_synthetic_events`
satisfies the invariant. -/
theorem normalization_invariants :
    (∀ e : SyntheticEvent, e.event_ts.isAware = true → e.event_id ≠ "" →
      ∃ n, normalizeSyntheticEvent e = .ok n ∧
        n.event_ts_utc.offset = some 0 ∧
        n.event_ts_utc.instant = e.event_ts.instant ∧
        0 ≤ n.quality_score ∧ n.quality_score ≤ 1) ∧
    (∀ e : SyntheticEvent, e.event_ts.isAware = true → e.event_id ≠ "" →
      e.quality_score = -1 →
      ∃ n, normalizeSyntheticEvent e = .ok n ∧ n.quality_score = 0) ∧
    (∀ e : SyntheticEvent, e.event_ts.isAware = true → e.event_id ≠ "" →
      e.quality_score = 99 →
      ∃ n, normalizeSyntheticEvent e = .ok n ∧ n.quality_score = 1) ∧
    (∀ e : SyntheticEvent, e.event_ts.isAware = false →
      (normalizeSyntheticEvent e).isOk = false) ∧
    (∀ (db : DuckDB) (events : List SyntheticEvent) (db' : DuckDB) (c : Int),
      appendSyntheticEvents db events = .ok (db', c) →
      ∀ x ∈ db'.rows, x ∈ db.rows ∨
        (x.event_ts_utc.offset = some 0 ∧
          0 ≤ x.quality_score ∧ x.quality_score ≤ 1)) := by
  have hok : ∀ e : SyntheticEvent, e.event_ts.isAware = true → e.event_id ≠ "" →
      normalizeSyntheticEvent e = .ok
        { event_id := e.event_id
          event_ts_utc := e.event_ts.toUTC
          event_date := e.event_ts.instant.fdiv usPerDay
          source_id := e.source_id
          signal_name := e.signal_name
          signal_value := e.signal_value
          quality_score := min 1 (max 0 e.quality_score)
          run_id := e.run_id } := by
    intro e h1 h2
    unfold normalizeSyntheticEvent
    rw [if_neg h2, if_neg (by simp [h1])]
  refine ⟨?_, ?_, ?_, ?_, ?_⟩
  · intro e h1 h2
    refine ⟨_, hok e h1 h2, rfl, rfl, ?_, min_le_left _ _⟩
    exact le_min (by norm_num) (le_max_left 0 _)
  · intro e h1 h2 h3
    refine ⟨_, hok e h1 h2, ?_⟩
    simp only [h3]
    norm_num
  · intro e h1 h2 h3
    refine ⟨_, hok e h1 h2, ?_⟩
    simp only [h3]
    norm_num
  · intro e h1
    unfold normalizeSyntheticEvent
    split_ifs <;> simp_all [Except.isOk, Except.toBool]
  · intro db events db' c happ x hx
    unfold appendSyntheticEvents at happ
    split_ifs at happ with hempty
    · injection happ with happ
      injection happ with h1 h2
      rw [← h1] at hx
      exact Or.inl hx
    · cases hall : normalizeAll events with
      | error msg => rw [hall] at happ; exact Except.noConfusion happ
      | ok ns =>
        rw [hall] at happ
        injection happ with happ
        injection happ with h1 h2
        rw [← h1] at hx
        rcases List.mem_append.mp hx with hx | hx
        · exact Or.inl hx
        · obtain ⟨e, he⟩ := normalizeAll_mem hall x hx
          obtain ⟨p1, _, p3, p4⟩ := normalize_ok_invariants he
          exact Or.inr ⟨p1, p3, p4⟩

theorem normalization_invariants_witness :
    (∃ n, normalizeSyntheticEvent
      { event_id := "e1"
        event_ts := { instant := 123, offset := some 300 }
        source_id := "s1"
        signal_name := "alpha"
        signal_value := 1
        quality_score := -1
        run_id := "r1" } = .ok n ∧ n.quality_score = 0) ∧
    (normalizeSyntheticEvent
      { event_id := "e1"
        event_ts := { instant := 123, offset := none }
        source_id := "s1"
        signal_name := "alpha"
        signal_value := 1
        quality_score := 99
        run_id := "r1" }).isOk = false :=
  ⟨normalization_invariants.2.1 _ rfl (by decide) rfl,
   normalization_invariants.2.2.2.1 _ rfl⟩

/-! ## C7 — generator input validation -/

/-- C7: `generate_synthetic_events` fails exactly when `start_ts` is
naive, `step <= 0`, `count < 0`, `run_id` is empty, or a candidate list
is empty; on every other input it succeeds with exactly `count` events. -/
theorem generator_validation (env : GeneratorEnv) (count : Int)
    (start_ts : Timestamp) (run_id : String) (seed : Int)
    (source_ids signal_names : List String) (step : Int) :
    ((generateSyntheticEvents env count start_ts run_id seed
        source_ids signal_names step).isOk = true ↔
      ¬(count < 0 ∨ start_ts.isAware = false ∨ run_id = "" ∨
        source_ids = [] ∨ signal_names = [] ∨ step ≤ 0)) ∧
    (∀ l, generateSyntheticEvents env count start_ts run_id seed
        source_ids signal_names step = .ok l → (l.length : Int) = count) := by
  unfold generateSyntheticEvents
  split_ifs with h1 h2 h3 h4 h5 h6
  · exact ⟨by simp [Except.isOk, Except.toBool, h1], fun l hl => hl.elim⟩
  · exact ⟨by simp [Except.isOk, Except.toBool, h2], fun l hl => hl.elim⟩
  · exact ⟨by simp [Except.isOk, Except.toBool, h3], fun l hl => hl.elim⟩
  · exact ⟨by simp [Except.isOk, Except.toBool, h4], fun l hl => hl.elim⟩
  · exact ⟨by simp [Except.isOk, Except.toBool, h5], fun l hl => hl.elim⟩
  · exact ⟨by simp [Except.isOk, Except.toBool, h6], fun l hl => hl.elim⟩
  · constructor
    · simp [Except.isOk, Except.toBool, h1, h2, h3, h4, h5, h6]
    · intro l hl
      injection hl with hl
      rw [← hl]
      simp only [List.length_map, List.length_range]
      omega

theorem generator_validation_witness :
    (generateSyntheticEvents trivEnv 3 { instant := 0, offset := some 0 }
      "r" 1 ["s"] ["a"] 1000000).isOk = true :=
  (generator_validation trivEnv 3 { instant := 0, offset := some 0 }
    "r" 1 ["s"] ["a"] 1000000).1.mpr (by decide)

/-! ## C4 — same seed, different run_id -/

/-- C4 (refuting the claim; the repository's own test
`test_generate_synthetic_events_varies_across_run_ids` expects different
sequences): the RNG is seeded from `seed` alone — `run_id` is never mixed
in — so two calls differing only in `run_id` produce identical
`signal_value` sequences, for every draw oracle.  Input as in the failing
test: seed 42, 25 events, one source and one signal. -/
theorem run_id_does_not_change_signal_values (env : GeneratorEnv) :
    (generateSyntheticEvents env 25 { instant := tsNoon, offset := some 0 }
        "run-a" 42 ["s1"] ["alpha"] 1000000).map (·.map (·.signal_value)) =
    (generateSyntheticEvents env 25 { instant := tsNoon, offset := some 0 }
        "run-b" 42 ["s1"] ["alpha"] 1000000).map (·.map (·.signal_value)) := rfl

/-! ## C6 — timestamps of generated events -/

/-- C6 (refuting the truncation part of the claim; the repository's own
test expects `microsecond == 0`): `generate_synthetic_events` emits
`event_timestamp = start_ts (as UTC) + step * index` — confirming that
part of the claim — but never truncates sub-second precision: with the
test's start timestamp (microsecond 123456) every emitted timestamp keeps
a sub-second component of 123456 µs instead of 0. -/
theorem generator_keeps_subsecond_precision (env : GeneratorEnv) :
    ∃ l, generateSyntheticEvents env 3 { instant := tsMicro, offset := some 0 }
        "run-1" 123 ["s1"] ["alpha"] 1000000 = .ok l ∧
      l.map (·.event_ts.instant) =
        [tsMicro, tsMicro + 1000000, tsMicro + 2 * 1000000] ∧
      l.map (fun e => e.event_ts.instant % 1000000) =
        [123456, 123456, 123456] := by
  refine ⟨_, rfl, ?_, ?_⟩ <;>
    simp [List.range_succ, tsMicro] <;> decide

/-! ## Rolling-metrics characterization -/

theorem lastN_length (n : ℕ) (l : List ℚ) :
    (lastN n l).length = min n l.length := by
  unfold lastN
  rw [List.length_drop]
  omega

theorem pushWindow_lastN (ws : ℕ) (hws : 1 ≤ ws) (vals : List ℚ) (v : ℚ) :
    pushWindow ws (lastN ws vals) v = lastN ws (vals ++ [v]) := by
  unfold pushWindow lastN
  have hA : (vals ++ [v]).length = vals.length + 1 := by
    rw [List.length_append, List.length_cons, List.length_nil]
  rcases le_or_lt ws vals.length with h | h
  · have e1 : (vals.drop (vals.length - ws) ++ [v]).length - ws = 1 := by
      rw [List.length_append, List.length_drop, List.length_cons, List.length_nil]
      omega
    rw [e1, hA]
    rw [List.drop_append_of_le_length
      (by rw [List.length_drop]; omega : 1 ≤ (vals.drop (vals.length - ws)).length)]
    rw [List.drop_append_of_le_length
      (by omega : vals.length + 1 - ws ≤ vals.length)]
    rw [List.drop_drop]
    exact congrArg (fun z => vals.drop z ++ [v])
      (by omega : vals.length - ws + 1 = vals.length + 1 - ws)
  · rw [show vals.length - ws = 0 from by omega, List.drop_zero]

theorem stateAfter_append_singleton (ws : ℕ) (st : RollingState)
    (l : List NormalizedSyntheticEvent) (e : NormalizedSyntheticEvent) :
    stateAfter ws st (l ++ [e]) = updState ws (stateAfter ws st l) e := by
  unfold stateAfter
  rw [List.foldl_append]
  rfl

theorem stateAfter_init (ws : ℕ) (hws : 1 ≤ ws) (l : List NormalizedSyntheticEvent)
    (k : String × String) :
    stateAfter ws (fun _ => []) l k = lastN ws (groupValsOf l k) := by
  induction l using List.reverseRecOn with
  | nil => simp [stateAfter, groupValsOf, lastN]
  | append_singleton l e ih =>
    rw [stateAfter_append_singleton]
    unfold updState
    by_cases hk : k = evtKey e
    · subst hk
      rw [if_pos rfl, ih, pushWindow_lastN ws hws]
      congr 1
      unfold groupValsOf
      rw [List.filter_append, List.map_append]
      congr 1
      simp [List.filter_cons]
    · rw [if_neg hk, ih]
      congr 1
      unfold groupValsOf
      rw [List.filter_append, List.map_append]
      have hne : ¬ (evtKey e = k) := fun hh => hk hh.symm
      have hfe : List.filter (fun x => decide (evtKey x = k)) [e] = [] := by
        simp [List.filter_cons, hne]
      rw [hfe, List.map_nil, List.append_nil]

theorem rollingGo_length (ws : ℕ) (zt : ℚ) :
    ∀ (l : List NormalizedSyntheticEvent) (st : RollingState),
      (rollingGo ws zt l st).length = l.length := by
  intro l
  induction l with
  | nil => intro st; rfl
  | cons e rest ih => intro st; simp [rollingGo, ih]

theorem rollingGo_get (ws : ℕ) (zt : ℚ) :
    ∀ (l : List NormalizedSyntheticEvent) (st : RollingState) (i : ℕ)
      (hi : i < (rollingGo ws zt l st).length) (hl : i < l.length),
      (rollingGo ws zt l st).get ⟨i, hi⟩ =
        mkRow ws zt (stateAfter ws st (l.take i)) (l.get ⟨i, hl⟩) := by
  intro l
  induction l with
  | nil => intro st i hi hl; exact absurd hl (Nat.not_lt_zero i)
  | cons e rest ih =>
    intro st i hi hl
    cases i with
    | zero => rfl
    | succ j =>
      have hj : j < (rollingGo ws zt rest (updState ws st e)).length := by
        simp only [rollingGo, List.length_cons] at hi
        rw [rollingGo_length] at hi ⊢
        omega
      have hjl : j < rest.length := Nat.lt_of_succ_lt_succ hl
      show (rollingGo ws zt rest (updState ws st e)).get ⟨j, hj⟩ = _
      rw [ih (updState ws st e) j hj hjl]
      rfl

/-- The two branch equations of `mkRow`. -/
theorem mkRow_of_lt (ws : ℕ) (zt : ℚ) (st : RollingState)
    (e : NormalizedSyntheticEvent) (h : (st (evtKey e)).length < ws) :
    mkRow ws zt st e =
      { event_id := e.event_id
        event_ts_utc := e.event_ts_utc.toUTC
        event_date := e.event_date
        source_id := e.source_id
        signal_name := e.signal_name
        signal_value := e.signal_value
        quality_score := e.quality_score
        run_id := e.run_id
        rolling_mean := none
        rolling_var := none
        is_anomaly := false } := by
  unfold mkRow
  dsimp only
  rw [if_pos h]

theorem mkRow_of_ge (ws : ℕ) (zt : ℚ) (st : RollingState)
    (e : NormalizedSyntheticEvent) (h : ¬ (st (evtKey e)).length < ws) :
    mkRow ws zt st e =
      { event_id := e.event_id
        event_ts_utc := e.event_ts_utc.toUTC
        event_date := e.event_date
        source_id := e.source_id
        signal_name := e.signal_name
        signal_value := e.signal_value
        quality_score := e.quality_score
        run_id := e.run_id
        rolling_mean :=
          some ((st (evtKey e)).sum / ((st (evtKey e)).length : ℚ))
        rolling_var :=
          some ((((st (evtKey e)).map fun x =>
            (x - (st (evtKey e)).sum / ((st (evtKey e)).length : ℚ)) ^ 2).sum) /
              ((st (evtKey e)).length : ℚ))
        is_anomaly :=
          if (((st (evtKey e)).map fun x =>
              (x - (st (evtKey e)).sum / ((st (evtKey e)).length : ℚ)) ^ 2).sum) /
                ((st (evtKey e)).length : ℚ) = 0 then false
          else anomalyFlag zt
            ((st (evtKey e)).sum / ((st (evtKey e)).length : ℚ))
            ((((st (evtKey e)).map fun x =>
              (x - (st (evtKey e)).sum / ((st (evtKey e)).length : ℚ)) ^ 2).sum) /
                ((st (evtKey e)).length : ℚ))
            e.signal_value } := by
  unfold mkRow
  dsimp only
  rw [if_neg h]

theorem mkRow_ts (ws : ℕ) (zt : ℚ) (st : RollingState)
    (e : NormalizedSyntheticEvent) :
    (mkRow ws zt st e).event_ts_utc = e.event_ts_utc.toUTC := by
  by_cases h : (st (evtKey e)).length < ws
  · rw [mkRow_of_lt ws zt st e h]
  · rw [mkRow_of_ge ws zt st e h]

/-- The population variance is nonnegative. -/
theorem varianceExpr_nonneg (w : List ℚ) (c : ℚ) (k : ℕ) :
    0 ≤ ((w.map fun x => (x - c) ^ 2).sum) / (k : ℚ) := by
  apply div_nonneg
  · apply List.sum_nonneg
    intro q hq
    rcases List.mem_map.mp hq with ⟨x, _, rfl⟩
    positivity
  · positivity

/-- Flag `anomalyFlag` agrees with the source's condition
`abs ((x - mean) / sqrt var) >= z_threshold`, stated over `ℝ`. -/
theorem anomalyFlag_eq_true_iff (zt m v x : ℚ) (hv : 0 < v) :
    (anomalyFlag zt m v x = true) ↔
      (zt : ℝ) ≤ |((x : ℝ) - (m : ℝ))| / Real.sqrt (v : ℝ) := by
  have hv0 : (0 : ℝ) < (v : ℝ) := by exact_mod_cast hv
  have hs : (0 : ℝ) < Real.sqrt v := Real.sqrt_pos.mpr hv0
  rw [le_div_iff hs]
  unfold anomalyFlag
  rcases le_or_lt zt 0 with h0 | h0
  · have hz : ((zt : ℝ)) ≤ 0 := by exact_mod_cast h0
    have h1 : (zt : ℝ) * Real.sqrt v ≤ 0 := by nlinarith [hs.le]
    have h2 : (0 : ℝ) ≤ |(x : ℝ) - m| := abs_nonneg _
    simp only [decide_eq_true_eq, Bool.or_eq_true]
    exact ⟨fun _ => by linarith, fun _ => Or.inl h0⟩
  · have h1 : ¬ (zt ≤ 0) := not_le.mpr h0
    rw [decide_eq_false h1, Bool.false_or, decide_eq_true_eq]
    constructor
    · intro hq
      have hr : ((zt : ℝ)) ^ 2 * v ≤ ((x : ℝ) - m) ^ 2 := by exact_mod_cast hq
      have hsq : ((zt : ℝ) * Real.sqrt v) ^ 2 ≤ |(x : ℝ) - m| ^ 2 := by
        rw [mul_pow, Real.sq_sqrt hv0.le, sq_abs]
        exact hr
      have := Real.sqrt_le_sqrt hsq
      rwa [Real.sqrt_sq (by positivity), Real.sqrt_sq (abs_nonneg _)] at this
    · intro hr
      have hsq : ((zt : ℝ) * Real.sqrt v) ^ 2 ≤ |(x : ℝ) - m| ^ 2 :=
        pow_le_pow_left (by positivity) hr 2
      rw [mul_pow, Real.sq_sqrt hv0.le, sq_abs] at hsq
      exact_mod_cast hsq

/-! ## C1 — the rolling-metrics contract -/

/-- C1: for every finite collection of normalized events, `window_size ≥ 1`
and `z_threshold > 0`, `compute_rolling_metrics` returns one row per input
event, ordered ascending by event timestamp, each row's statistics drawn
from the window of at most `window_size` values of strictly prior
same-group events (excluding the current event): nulls and no anomaly
while fewer than `window_size` prior values exist, otherwise the
arithmetic mean and the population standard deviation of the window, with
`z_score = 0` and no anomaly on a zero standard deviation and otherwise
`is_anomaly ↔ |z| ≥ z_threshold` for `z = (signal_value - mean) / std`. -/
theorem rolling_metrics_contract (events : List NormalizedSyntheticEvent)
    (ws : ℕ) (zt : ℚ) (rows : List RollingMetricRow)
    (hws : 1 ≤ ws) (hzt : 0 < zt)
    (hok : computeRollingMetrics events ws zt = .ok rows) :
    rollingSpecHolds events ws zt rows := by
  have hrows : rows = rollingGo ws zt (sortEventsAsc events) (fun _ => []) := by
    unfold computeRollingMetrics at hok
    rw [if_neg (by omega)] at hok
    injection hok with hok
    exact hok.symm
  subst hrows
  have hlen : (rollingGo ws zt (sortEventsAsc events) (fun _ => [])).length =
      (sortEventsAsc events).length := rollingGo_length ws zt _ _
  refine ⟨?_, ?_, ?_⟩
  · rw [hlen]
    exact List.length_insertionSort tsLeAsc events
  · apply List.pairwise_iff_get.mpr
    intro i j hij
    obtain ⟨i, hi⟩ := i
    obtain ⟨j, hj⟩ := j
    have hi' : i < (sortEventsAsc events).length := by omega
    have hj' : j < (sortEventsAsc events).length := by omega
    rw [rollingGo_get ws zt _ _ i hi hi', rollingGo_get ws zt _ _ j hj hj',
      mkRow_ts, mkRow_ts]
    exact List.pairwise_iff_get.mp
      (List.sorted_insertionSort tsLeAsc events) ⟨i, hi'⟩ ⟨j, hj'⟩ hij
  · intro i hi hs
    rw [rollingGo_get ws zt _ _ i hi hs]
    have hst : stateAfter ws (fun _ => [])
        ((sortEventsAsc events).take i)
        (evtKey ((sortEventsAsc events).get ⟨i, hs⟩)) =
        lastN ws (groupValsOf ((sortEventsAsc events).take i)
          (evtKey ((sortEventsAsc events).get ⟨i, hs⟩))) :=
      stateAfter_init ws hws _ _
    unfold rowSpecAt
    by_cases hcase : (groupValsOf ((sortEventsAsc events).take i)
        (evtKey ((sortEventsAsc events).get ⟨i, hs⟩))).length < ws
    · have hw : (stateAfter ws (fun _ => [])
          ((sortEventsAsc events).take i)
          (evtKey ((sortEventsAsc events).get ⟨i, hs⟩))).length < ws := by
        rw [hst, lastN_length]; omega
      rw [mkRow_of_lt ws zt _ _ hw]
      exact ⟨⟨rfl, rfl, rfl, rfl, rfl, rfl, rfl, rfl⟩,
        by rw [lastN_length]; omega,
        fun _ => ⟨rfl, rfl, rfl⟩,
        fun hge => absurd hge (by omega)⟩
    · have hw : ¬ (stateAfter ws (fun _ => [])
          ((sortEventsAsc events).take i)
          (evtKey ((sortEventsAsc events).get ⟨i, hs⟩))).length < ws := by
        rw [hst, lastN_length]; omega
      rw [mkRow_of_ge ws zt _ _ hw, hst]
      have hkey : (lastN ws (groupValsOf ((sortEventsAsc events).take i)
          (evtKey ((sortEventsAsc events).get ⟨i, hs⟩)))).length = ws := by
        rw [lastN_length]; omega
      rw [hkey]
      refine ⟨⟨rfl, rfl, rfl, rfl, rfl, rfl, rfl, rfl⟩,
        by omega,
        fun hlt => absurd hlt (by omega),
        fun _ => ⟨rfl, rfl, ?_⟩⟩
      intro v hv
      obtain rfl := (Option.some.inj hv).symm
      have hv0 : 0 ≤ (((lastN ws (groupValsOf ((sortEventsAsc events).take i)
          (evtKey ((sortEventsAsc events).get ⟨i, hs⟩)))).map fun x =>
            (x - (lastN ws (groupValsOf ((sortEventsAsc events).take i)
              (evtKey ((sortEventsAsc events).get ⟨i, hs⟩)))).sum / (ws : ℚ)) ^ 2).sum)
            / (ws : ℚ) := varianceExpr_nonneg _ _ _
      constructor
      · intro hsq0
        have hr0 : ((((lastN ws (groupValsOf ((sortEventsAsc events).take i)
            (evtKey ((sortEventsAsc events).get ⟨i, hs⟩)))).map fun x =>
              (x - (lastN ws (groupValsOf ((sortEventsAsc events).take i)
                (evtKey ((sortEventsAsc events).get ⟨i, hs⟩)))).sum / (ws : ℚ)) ^ 2).sum)
              / (ws : ℚ) : ℚ) = 0 := by
          have h1 := Real.sqrt_eq_zero'.mp hsq0
          have h2 : ((0:ℚ):ℝ) ≤ _ := Rat.cast_le.mpr hv0
          exact_mod_cast le_antisymm (by exact_mod_cast h1) hv0
        rw [if_pos hr0]
      · intro hsqne
        have hVpos : 0 < (((lastN ws (groupValsOf ((sortEventsAsc events).take i)
            (evtKey ((sortEventsAsc events).get ⟨i, hs⟩)))).map fun x =>
              (x - (lastN ws (groupValsOf ((sortEventsAsc events).take i)
                (evtKey ((sortEventsAsc events).get ⟨i, hs⟩)))).sum / (ws : ℚ)) ^ 2).sum)
              / (ws : ℚ) := by
          rcases lt_or_eq_of_le hv0 with h | h
          · exact h
          · exact absurd (by rw [← h]; simp) hsqne
        rw [if_neg hVpos.ne']
        exact anomalyFlag_eq_true_iff zt _ _ _ hVpos

theorem rolling_metrics_contract_witness :
    rollingSpecHolds demoEventsC1 3 3
      ((computeRollingMetrics demoEventsC1 3 3).toOption.getD []) :=
  rolling_metrics_contract demoEventsC1 3 3 _ (by norm_num) (by norm_num) rfl

/-! ## C5 — per-group independence of the rolling computation -/

theorem orderedInsert_cons_of_forall (a : NormalizedSyntheticEvent)
    (M : List NormalizedSyntheticEvent) (h : ∀ b ∈ M, tsLeAsc a b) :
    M.orderedInsert tsLeAsc a = a :: M := by
  cases M with
  | nil => rfl
  | cons b m => exact List.orderedInsert_of_le tsLeAsc m (h b (List.mem_cons_self b m))

theorem orderedInsert_cons (x y : NormalizedSyntheticEvent)
    (M : List NormalizedSyntheticEvent) :
    List.orderedInsert tsLeAsc x (y :: M) =
      if tsLeAsc x y then x :: y :: M
      else y :: List.orderedInsert tsLeAsc x M := rfl

/-- Filtering commutes with inserting into a sorted list. -/
theorem filter_orderedInsert_sorted (p : NormalizedSyntheticEvent → Bool)
    (a : NormalizedSyntheticEvent) :
    ∀ (L : List NormalizedSyntheticEvent), List.Sorted tsLeAsc L →
      (L.orderedInsert tsLeAsc a).filter p =
        if p a then (L.filter p).orderedInsert tsLeAsc a else L.filter p := by
  intro L
  induction L with
  | nil =>
    intro _
    cases hpa : p a <;> simp [List.orderedInsert, List.filter, hpa]
  | cons b L ih =>
    intro hsort
    have hsL : List.Sorted tsLeAsc L := hsort.of_cons
    have hbL : ∀ c ∈ L, tsLeAsc b c := List.rel_of_sorted_cons hsort
    rw [orderedInsert_cons a b L]
    by_cases hab : tsLeAsc a b
    · rw [if_pos hab]
      cases hpa : p a with
      | true =>
        rw [List.filter_cons_of_pos hpa, if_pos rfl]
        cases hpb : p b with
        | true =>
          rw [List.filter_cons_of_pos hpb,
            orderedInsert_cons a b (L.filter p), if_pos hab]
        | false =>
          rw [List.filter_cons_of_neg (by simp [hpb]),
            orderedInsert_cons_of_forall a (L.filter p)]
          intro c hc
          exact Int.le_trans hab (hbL c (List.mem_of_mem_filter hc))
      | false =>
        rw [List.filter_cons_of_neg (by simp [hpa]), if_neg (by simp [hpa])]
    · rw [if_neg hab]
      cases hpb : p b with
      | true =>
        rw [List.filter_cons_of_pos hpb]
        rw [List.filter_cons_of_pos hpb]
        rw [ih hsL, orderedInsert_cons a b (L.filter p), if_neg hab]
        cases hpa : p a with
        | true => rw [if_pos rfl, if_pos rfl]
        | false => rw [if_neg (by simp), if_neg (by simp)]
      | false =>
        rw [List.filter_cons_of_neg (by simp [hpb])]
        rw [List.filter_cons_of_neg (by simp [hpb])]
        rw [ih hsL]

/-- A stable ascending sort commutes with filtering. -/
theorem sortEventsAsc_filter (p : NormalizedSyntheticEvent → Bool)
    (l : List NormalizedSyntheticEvent) :
    (sortEventsAsc l).filter p = sortEventsAsc (l.filter p) := by
  induction l with
  | nil => rfl
  | cons a l ih =>
    have h1 : sortEventsAsc (a :: l) =
        List.orderedInsert tsLeAsc a (sortEventsAsc l) := rfl
    rw [h1, filter_orderedInsert_sorted p a (sortEventsAsc l)
      (List.sorted_insertionSort tsLeAsc l)]
    cases hpa : p a with
    | true =>
      rw [if_pos rfl, ih, List.filter_cons_of_pos hpa]
      rfl
    | false =>
      rw [if_neg (by simp), ih, List.filter_cons_of_neg (by simp [hpa])]

theorem mkRow_key (ws : ℕ) (zt : ℚ) (st : RollingState)
    (e : NormalizedSyntheticEvent) :
    rowKey (mkRow ws zt st e) = evtKey e := by
  by_cases h : (st (evtKey e)).length < ws
  · rw [mkRow_of_lt ws zt st e h]; rfl
  · rw [mkRow_of_ge ws zt st e h]; rfl

/-- Row production `mkRow` only reads the state of the event's own group. -/
theorem mkRow_congr (ws : ℕ) (zt : ℚ) (st1 st2 : RollingState)
    (e : NormalizedSyntheticEvent) (h : st1 (evtKey e) = st2 (evtKey e)) :
    mkRow ws zt st1 e = mkRow ws zt st2 e := by
  unfold mkRow
  rw [h]

theorem updState_at (ws : ℕ) (st : RollingState)
    (e : NormalizedSyntheticEvent) (k : String × String) :
    updState ws st e k =
      if k = evtKey e then pushWindow ws (st (evtKey e)) e.signal_value
      else st k := rfl

/-- The main loop restricted to one group equals the loop on that group's
events alone, whenever the two states agree on that group. -/
theorem rollingGo_filter (ws : ℕ) (zt : ℚ) (τ : String × String) :
    ∀ (l : List NormalizedSyntheticEvent) (st1 st2 : RollingState),
      st1 τ = st2 τ →
      (rollingGo ws zt l st1).filter (fun r => decide (rowKey r = τ)) =
        rollingGo ws zt (l.filter fun e => decide (evtKey e = τ)) st2 := by
  intro l
  induction l with
  | nil => intro _ _ _; rfl
  | cons e rest ih =>
    intro st1 st2 hagree
    show (mkRow ws zt st1 e :: rollingGo ws zt rest (updState ws st1 e)).filter _ =
      rollingGo ws zt ((e :: rest).filter fun e => decide (evtKey e = τ)) st2
    by_cases hk : evtKey e = τ
    · have hkey : st1 (evtKey e) = st2 (evtKey e) := by rw [hk]; exact hagree
      rw [List.filter_cons_of_pos (by simp [mkRow_key, hk]),
        List.filter_cons_of_pos (by simp [hk])]
      show _ = mkRow ws zt st2 e :: rollingGo ws zt
        (rest.filter fun e => decide (evtKey e = τ)) (updState ws st2 e)
      rw [mkRow_congr ws zt st1 st2 e hkey]
      congr 1
      apply ih
      rw [updState_at, updState_at]
      by_cases hτ : τ = evtKey e
      · rw [if_pos hτ, if_pos hτ, hkey]
      · rw [if_neg hτ, if_neg hτ]; exact hagree
    · rw [List.filter_cons_of_neg (by simp [mkRow_key, hk]),
        List.filter_cons_of_neg (by simp [hk])]
      apply ih
      rw [updState_at, if_neg (fun hτ => hk hτ.symm)]
      exact hagree

/-- C5: `compute_rolling_metrics` computes each `(source_id, signal_name)`
group independently: the rows it produces for one group's events coincide
with the rows produced by running it on that group's events alone (values
in one group never affect another group's statistics).  Both sides raise
the same invalid-input error when `window_size < 1`. -/
theorem rolling_metrics_group_independent
    (events : List NormalizedSyntheticEvent) (ws : ℕ) (zt : ℚ)
    (k : String × String) :
    (computeRollingMetrics events ws zt).map
      (List.filter fun r => decide (rowKey r = k)) =
    computeRollingMetrics (events.filter fun e => decide (evtKey e = k))
      ws zt := by
  unfold computeRollingMetrics
  by_cases hws : ws < 1
  · rw [if_pos hws, if_pos hws]; rfl
  · rw [if_neg hws, if_neg hws]
    show Except.ok _ = Except.ok _
    congr 1
    rw [← sortEventsAsc_filter]
    exact rollingGo_filter ws zt k (sortEventsAsc events) _ _ rfl

/-! ## C2 — the lookback resolver feeds the rolling engine -/

theorem fetch_some_pos_eq (db : DuckDB) (hf : db.fileExists = true)
    (ht : db.tableExists = true) (n : Int) (hn : 0 < n) :
    fetchSyntheticEvents db (some n) =
      ((sortEventsDesc db.rows).take n.toNat).map rowToUTC := by
  unfold fetchSyntheticEvents
  rw [hf, ht]
  simp only [Bool.true_eq_false, if_false]
  rw [if_neg (by omega)]

theorem fetch_some_full (db : DuckDB) (hf : db.fileExists = true)
    (ht : db.tableExists = true) (n : Int) (hpos : 0 < db.rows.length)
    (hn : (db.rows.length : Int) ≤ n) :
    fetchSyntheticEvents db (some n) =
      (sortEventsDesc db.rows).map rowToUTC := by
  rw [fetch_some_pos_eq db hf ht n (by omega)]
  congr 1
  apply List.take_of_length_le
  have : (sortEventsDesc db.rows).length = db.rows.length :=
    List.length_insertionSort tsLeDesc db.rows
  omega

/-- Once the fetch size covers the whole store, every exit of the loop
returns the window together with the full store (newest first). -/
theorem rollingFetchLoop_full (db : DuckDB) (wl ws cap : Int)
    (window : List NormalizedSyntheticEvent)
    (hf : db.fileExists = true) (ht : db.tableExists = true)
    (hpos : 0 < db.rows.length) :
    ∀ (fuel : ℕ) (n : Int), (db.rows.length : Int) ≤ n →
      rollingFetchLoop db wl ws cap window fuel n =
        (window, (sortEventsDesc db.rows).map rowToUTC) := by
  intro fuel
  induction fuel with
  | zero =>
    intro n hn
    unfold rollingFetchLoop
    rw [fetch_some_full db hf ht n hpos hn]
  | succ fuel ih =>
    intro n hn
    unfold rollingFetchLoop
    rw [fetch_some_full db hf ht n hpos hn]
    dsimp only
    split_ifs with h1 h2 h3
    · rfl
    · rfl
    · rfl
    · exact ih (min cap (2 * n)) (by omega)

/-- In a strictly ascending list, the number of elements with a smaller
instant than the one at index `i` is exactly `i`. -/
theorem countP_lt_get_strictAsc (l : List NormalizedSyntheticEvent)
    (hst : l.Pairwise
      (fun a b => a.event_ts_utc.instant < b.event_ts_utc.instant))
    (i : ℕ) (hi : i < l.length) :
    l.countP (fun x =>
      decide (x.event_ts_utc.instant <
        (l.get ⟨i, hi⟩).event_ts_utc.instant)) = i := by
  have hpg := List.pairwise_iff_get.mp hst
  obtain ⟨c, hc⟩ : ∃ c, (l.get ⟨i, hi⟩).event_ts_utc.instant = c := ⟨_, rfl⟩
  rw [hc]
  have hsum : l.countP (fun x => decide (x.event_ts_utc.instant < c)) =
      (l.take i).countP (fun x => decide (x.event_ts_utc.instant < c)) +
      (l.drop i).countP (fun x => decide (x.event_ts_utc.instant < c)) := by
    conv_lhs => rw [← List.take_append_drop i l]
    exact List.countP_append _ _ _
  rw [hsum]
  have htake : (l.take i).countP
      (fun x => decide (x.event_ts_utc.instant < c)) = i := by
    rw [List.countP_eq_length.mpr, List.length_take]
    · omega
    · intro a ha
      obtain ⟨⟨j, hj⟩, hja⟩ := List.mem_iff_get.mp ha
      have hji : j < i := by rw [List.length_take] at hj; omega
      have hjlen : j < l.length := by omega
      have hgt : (l.take i).get ⟨j, hj⟩ = l.get ⟨j, hjlen⟩ :=
        (List.get_take l hjlen hji).symm
      rw [← hja, hgt]
      exact decide_eq_true
        (hc ▸ hpg ⟨j, hjlen⟩ ⟨i, hi⟩ (Fin.mk_lt_mk.mpr hji))
  have hdrop : (l.drop i).countP
      (fun x => decide (x.event_ts_utc.instant < c)) = 0 := by
    rw [List.countP_eq_zero]
    intro a ha
    obtain ⟨⟨j, hj⟩, hja⟩ := List.mem_iff_get.mp ha
    have hjl : i + j < l.length := by
      rw [List.length_drop] at hj; omega
    have hgd : (l.drop i).get ⟨j, hj⟩ = l.get ⟨i + j, hjl⟩ := by
      rw [List.get_eq_getElem, List.get_eq_getElem, List.getElem_drop]
    rw [← hja, hgd]
    simp only [decide_eq_true_eq, not_lt]
    rcases Nat.eq_zero_or_pos j with hj0 | hj0
    · subst hj0
      have : l.get ⟨i + 0, hjl⟩ = l.get ⟨i, hi⟩ := by congr 1
      rw [this, hc]
    · have hlt := hpg ⟨i, hi⟩ ⟨i + j, hjl⟩ (Fin.mk_lt_mk.mpr (by omega))
      rw [hc] at hlt
      omega
  omega

/-- In a strictly descending list, an element of the first `m` positions
has at least `length - m` elements with a strictly smaller instant. -/
theorem countP_lt_mem_take_strictDesc (l : List NormalizedSyntheticEvent)
    (hst : l.Pairwise
      (fun a b => b.event_ts_utc.instant < a.event_ts_utc.instant))
    (m : ℕ) (w : NormalizedSyntheticEvent) (hw : w ∈ l.take m) :
    l.length - m ≤
      l.countP (fun x =>
        decide (x.event_ts_utc.instant < w.event_ts_utc.instant)) := by
  have hpg := List.pairwise_iff_get.mp hst
  obtain ⟨⟨j, hj⟩, hjw⟩ := List.mem_iff_get.mp hw
  have hjm : j < m := by rw [List.length_take] at hj; omega
  have hjl : j < l.length := by rw [List.length_take] at hj; omega
  have hgt : (l.take m).get ⟨j, hj⟩ = l.get ⟨j, hjl⟩ :=
    (List.get_take l hjl hjm).symm
  have hw' : w = l.get ⟨j, hjl⟩ := by rw [← hjw, hgt]
  have hsum : l.countP
      (fun x => decide (x.event_ts_utc.instant < w.event_ts_utc.instant)) =
      (l.take (j + 1)).countP
        (fun x => decide (x.event_ts_utc.instant < w.event_ts_utc.instant)) +
      (l.drop (j + 1)).countP
        (fun x => decide (x.event_ts_utc.instant < w.event_ts_utc.instant)) := by
    conv_lhs => rw [← List.take_append_drop (j + 1) l]
    exact List.countP_append _ _ _
  have hdrop : (l.drop (j + 1)).countP (fun x =>
      decide (x.event_ts_utc.instant < w.event_ts_utc.instant)) =
      (l.drop (j + 1)).length := by
    rw [List.countP_eq_length]
    intro a ha
    obtain ⟨⟨q, hq⟩, hqa⟩ := List.mem_iff_get.mp ha
    have hql : j + 1 + q < l.length := by
      rw [List.length_drop] at hq; omega
    have hgd : (l.drop (j + 1)).get ⟨q, hq⟩ = l.get ⟨j + 1 + q, hql⟩ := by
      rw [List.get_eq_getElem, List.get_eq_getElem, List.getElem_drop]
    rw [← hqa, hgd, hw']
    exact decide_eq_true
      (hpg ⟨j, hjl⟩ ⟨j + 1 + q, hql⟩ (Fin.mk_lt_mk.mpr (by omega)))
  have hlen : (l.drop (j + 1)).length = l.length - (j + 1) :=
    List.length_drop (j + 1) l
  omega

/-- C2: for a store of 20 persisted events in one `(source_id,
signal_name)` group with pairwise distinct timestamps,
`get_events_for_rolling_window` with `window_limit = 10`, `window_size = 5`
(and the default safety cap 5000) returns a lookback collection such that
`compute_rolling_metrics` with `window_size = 5` gives every window
event's row non-null `rolling_mean` and non-null variance (equivalently,
non-null `rolling_std = sqrt` of it). -/
theorem lookback_window_rows_have_stats
    (db : DuckDB) (src sig : String) (zt : ℚ)
    (hf : db.fileExists = true) (ht : db.tableExists = true)
    (hlen : db.rows.length = 20)
    (hgrp : ∀ e ∈ db.rows, e.source_id = src ∧ e.signal_name = sig)
    (hdist : db.rows.Pairwise
      (fun a b => a.event_ts_utc.instant ≠ b.event_ts_utc.instant))
    (win look : List NormalizedSyntheticEvent)
    (rows : List RollingMetricRow)
    (hget : getEventsForRollingWindow db 10 5 5000 = .ok (win, look))
    (hcomp : computeRollingMetrics look 5 zt = .ok rows) :
    ∀ r ∈ rows, r.event_ts_utc ∈ win.map (·.event_ts_utc) →
      r.rolling_mean.isSome ∧ r.rolling_var.isSome := by
  have hpos : 0 < db.rows.length := by omega
  have hDlen : (sortEventsDesc db.rows).length = 20 := by
    unfold sortEventsDesc
    rw [List.length_insertionSort]; exact hlen
  have hwq : fetchSyntheticEvents db (some 10) =
      ((sortEventsDesc db.rows).take 10).map rowToUTC := by
    rw [fetch_some_pos_eq db hf ht 10 (by norm_num)]
    rfl
  have hwne : fetchSyntheticEvents db (some 10) ≠ [] := by
    rw [hwq]
    intro h0
    have hq := congrArg List.length h0
    rw [List.length_map, List.length_take, hDlen] at hq
    simp at hq
  unfold getEventsForRollingWindow at hget
  rw [if_neg (by norm_num), if_neg (by norm_num), if_neg hwne] at hget
  dsimp only at hget
  rw [show (5000 : Int) ⊓ (10 + 5 * 10) = 60 from by norm_num,
    rollingFetchLoop_full db 10 5 5000 _ hf ht hpos _ 60
      (by rw [hlen]; norm_num)] at hget
  injection hget with hget
  injection hget with hw hl
  subst hw
  subst hl
  have hrows : rows =
      rollingGo 5 zt
        (sortEventsAsc ((sortEventsDesc db.rows).map rowToUTC))
        (fun _ => []) := by
    unfold computeRollingMetrics at hcomp
    rw [if_neg (by norm_num)] at hcomp
    injection hcomp with h
    exact h.symm
  subst hrows
  -- order and distinctness facts
  have hpermD : (sortEventsDesc db.rows).Perm db.rows :=
    List.perm_insertionSort tsLeDesc db.rows
  have hdistD : (sortEventsDesc db.rows).Pairwise
      (fun a b => a.event_ts_utc.instant ≠ b.event_ts_utc.instant) :=
    (hpermD.pairwise_iff fun hxy => Ne.symm hxy).mpr hdist
  have hstrictD : (sortEventsDesc db.rows).Pairwise
      (fun a b => b.event_ts_utc.instant < a.event_ts_utc.instant) := by
    have hand := (List.sorted_insertionSort tsLeDesc db.rows).and hdistD
    exact hand.imp fun hab => lt_of_le_of_ne hab.1 (Ne.symm hab.2)
  have hpermA : (sortEventsAsc ((sortEventsDesc db.rows).map rowToUTC)).Perm
      ((sortEventsDesc db.rows).map rowToUTC) :=
    List.perm_insertionSort tsLeAsc _
  have hdistMap : ((sortEventsDesc db.rows).map rowToUTC).Pairwise
      (fun a b => a.event_ts_utc.instant ≠ b.event_ts_utc.instant) := by
    rw [List.pairwise_map]
    exact hdistD
  have hdistA : (sortEventsAsc ((sortEventsDesc db.rows).map rowToUTC)).Pairwise
      (fun a b => a.event_ts_utc.instant ≠ b.event_ts_utc.instant) :=
    (hpermA.pairwise_iff fun hxy => Ne.symm hxy).mpr hdistMap
  have hstrictA : (sortEventsAsc ((sortEventsDesc db.rows).map rowToUTC)).Pairwise
      (fun a b => a.event_ts_utc.instant < b.event_ts_utc.instant) := by
    have hand := (List.sorted_insertionSort tsLeAsc
      ((sortEventsDesc db.rows).map rowToUTC)).and hdistA
    exact hand.imp fun hab => lt_of_le_of_ne hab.1 hab.2
  have hAlen : (sortEventsAsc ((sortEventsDesc db.rows).map rowToUTC)).length = 20 := by
    unfold sortEventsAsc
    rw [List.length_insertionSort, List.length_map, hDlen]
  have hgrpA : ∀ x ∈ sortEventsAsc ((sortEventsDesc db.rows).map rowToUTC),
      x.source_id = src ∧ x.signal_name = sig := by
    intro x hx
    have hx2 : x ∈ (sortEventsDesc db.rows).map rowToUTC := hpermA.subset hx
    obtain ⟨y, hy, rfl⟩ := List.mem_map.mp hx2
    exact hgrp y (hpermD.subset hy)
  -- the main argument
  intro r hr hts
  obtain ⟨⟨i, hi⟩, hri⟩ := List.mem_iff_get.mp hr
  have hiA : i < (sortEventsAsc ((sortEventsDesc db.rows).map rowToUTC)).length := by
    rw [rollingGo_length] at hi
    exact hi
  have hget_i := rollingGo_get 5 zt
    (sortEventsAsc ((sortEventsDesc db.rows).map rowToUTC))
    (fun _ => []) i hi hiA
  rw [← hri, hget_i] at hts ⊢
  rw [mkRow_ts, hwq] at hts
  obtain ⟨x, hxmem, hxeq⟩ := List.mem_map.mp hts
  obtain ⟨w0, hw0mem, rfl⟩ := List.mem_map.mp hxmem
  have hinst : ((sortEventsAsc ((sortEventsDesc db.rows).map rowToUTC)).get
      ⟨i, hiA⟩).event_ts_utc.instant = w0.event_ts_utc.instant := by
    have := congrArg Timestamp.instant hxeq
    exact this.symm
  have hcntD : 10 ≤ (sortEventsDesc db.rows).countP
      (fun x => decide (x.event_ts_utc.instant < w0.event_ts_utc.instant)) := by
    have := countP_lt_mem_take_strictDesc (sortEventsDesc db.rows)
      hstrictD 10 w0 hw0mem
    omega
  have hcntA : (sortEventsAsc ((sortEventsDesc db.rows).map rowToUTC)).countP
      (fun x => decide (x.event_ts_utc.instant < w0.event_ts_utc.instant)) =
      (sortEventsDesc db.rows).countP
        (fun x => decide (x.event_ts_utc.instant < w0.event_ts_utc.instant)) := by
    rw [hpermA.countP_eq, List.countP_map]
    rfl
  have hcnt_i := countP_lt_get_strictAsc
    (sortEventsAsc ((sortEventsDesc db.rows).map rowToUTC)) hstrictA i hiA
  have hige : 10 ≤ i := by
    rw [hinst] at hcnt_i
    omega
  -- prior history of the event's group
  have hst := stateAfter_init 5 (by norm_num)
    ((sortEventsAsc ((sortEventsDesc db.rows).map rowToUTC)).take i)
    (evtKey ((sortEventsAsc ((sortEventsDesc db.rows).map rowToUTC)).get ⟨i, hiA⟩))
  have hpriorlen : (groupValsOf
      ((sortEventsAsc ((sortEventsDesc db.rows).map rowToUTC)).take i)
      (evtKey ((sortEventsAsc ((sortEventsDesc db.rows).map rowToUTC)).get
        ⟨i, hiA⟩))).length = i := by
    unfold groupValsOf
    rw [List.length_map, List.filter_eq_self.mpr, List.length_take, hAlen]
    · omega
    · intro x hx
      have hxA : x ∈ sortEventsAsc ((sortEventsDesc db.rows).map rowToUTC) :=
        List.mem_of_mem_take hx
      have hgx := hgrpA x hxA
      have hge := hgrpA _ (List.get_mem _ i hiA)
      apply decide_eq_true
      unfold evtKey
      rw [hgx.1, hgx.2, hge.1, hge.2]
  have hw5 : ¬ (stateAfter 5 (fun _ => [])
      ((sortEventsAsc ((sortEventsDesc db.rows).map rowToUTC)).take i)
      (evtKey ((sortEventsAsc ((sortEventsDesc db.rows).map rowToUTC)).get
        ⟨i, hiA⟩))).length < 5 := by
    rw [hst, lastN_length, hpriorlen]
    omega
  rw [mkRow_of_ge 5 zt _ _ hw5]
  exact ⟨rfl, rfl⟩

theorem lookback_window_rows_have_stats_witness :
    (((computeRollingMetrics
        ((getEventsForRollingWindow demoDbC2 10 5 5000).toOption.getD ([], [])).2
        5 3).toOption.getD []).getD 19 defaultMetricRow).rolling_mean.isSome ∧
    (((computeRollingMetrics
        ((getEventsForRollingWindow demoDbC2 10 5 5000).toOption.getD ([], [])).2
        5 3).toOption.getD []).getD 19 defaultMetricRow).rolling_var.isSome := by
  have hlen : 19 < ((computeRollingMetrics
      ((getEventsForRollingWindow demoDbC2 10 5 5000).toOption.getD ([], [])).2
      5 3).toOption.getD []).length := by decide
  have hmem : ((computeRollingMetrics
      ((getEventsForRollingWindow demoDbC2 10 5 5000).toOption.getD ([], [])).2
      5 3).toOption.getD []).getD 19 defaultMetricRow ∈
      (computeRollingMetrics
        ((getEventsForRollingWindow demoDbC2 10 5 5000).toOption.getD ([], [])).2
        5 3).toOption.getD [] := by
    rw [List.getD_eq_getElem _ defaultMetricRow hlen]
    exact List.getElem_mem hlen
  exact lookback_window_rows_have_stats demoDbC2 "s1" "alpha" 3 rfl rfl rfl
    (by decide) (by decide) _ _ _ rfl rfl _ hmem (by decide)

/-! ## C3 — the resolver follows the claimed algorithm -/

theorem all_map_congr {α β : Type} (l : List α) (f : α → β)
    (p : β → Bool) (q : α → Bool) (h : ∀ a ∈ l, p (f a) = q a) :
    (l.map f).all p = l.all q := by
  induction l with
  | nil => rfl
  | cons a l ih =>
    rw [List.map_cons, List.all_cons, List.all_cons,
      h a (List.mem_cons_self a l),
      ih fun x hx => h x (List.mem_cons_of_mem a hx)]

/-- The `group_positions` map after the `lookback_satisfied` fold counts
the group's events. -/
theorem lbFold_gp (l : List NormalizedSyntheticEvent) :
    ∀ (acc : LbAcc) (k : String × String),
      (l.foldl lbStep acc).gp k =
        acc.gp k + l.countP (fun e => decide (evtKey e = k)) := by
  induction l with
  | nil => intro acc k; simp
  | cons e rest ih =>
    intro acc k
    show (rest.foldl lbStep (lbStep acc e)).gp k = _
    rw [ih, List.countP_cons]
    unfold lbStep
    dsimp only
    by_cases hk : k = evtKey e
    · subst hk
      rw [if_pos rfl]
      have hd : (decide (evtKey e = evtKey e)) = true := decide_eq_true rfl
      rw [hd, if_pos rfl]
      omega
    · rw [if_neg hk]
      have : (decide (evtKey e = k)) = false :=
        decide_eq_false fun hh => hk hh.symm
      rw [this]
      simp

/-- After the `lookback_satisfied` fold over a strictly ascending list
with distinct event ids, `index_by_id` maps each member's id to the
number of strictly earlier same-group events. -/
theorem lbFold_idx (l : List NormalizedSyntheticEvent)
    (hst : l.Pairwise
      (fun a b => a.event_ts_utc.instant < b.event_ts_utc.instant))
    (hids : l.Pairwise (fun a b => a.event_id ≠ b.event_id)) :
    ∀ e ∈ l,
      (l.foldl lbStep ⟨fun _ => 0, fun _ => none⟩).idx e.event_id =
        some (l.countP fun x => decide (evtKey x = evtKey e ∧
          x.event_ts_utc.instant < e.event_ts_utc.instant)) := by
  induction l using List.reverseRecOn with
  | nil => intro e he; exact absurd he (List.not_mem_nil e)
  | append_singleton l a ih =>
    intro e he
    obtain ⟨hstL, -, hstX⟩ := List.pairwise_append.mp hst
    obtain ⟨hidsL, -, hidsX⟩ := List.pairwise_append.mp hids
    have hcross_ts : ∀ x ∈ l, x.event_ts_utc.instant < a.event_ts_utc.instant :=
      fun x hx => hstX x hx a (List.mem_singleton_self a)
    have hcross_id : ∀ x ∈ l, x.event_id ≠ a.event_id :=
      fun x hx => hidsX x hx a (List.mem_singleton_self a)
    rw [List.foldl_append, List.foldl_cons, List.foldl_nil]
    rcases List.mem_append.mp he with heL | heA
    · -- e occurs before the appended last element
      have hne : e.event_id ≠ a.event_id := hcross_id e heL
      show (if e.event_id = a.event_id then _ else _) = _
      rw [if_neg hne, ih hstL hidsL e heL, List.countP_append]
      have hzero : List.countP (fun x => decide (evtKey x = evtKey e ∧
          x.event_ts_utc.instant < e.event_ts_utc.instant)) [a] = 0 := by
        rw [List.countP_eq_zero]
        intro b hb
        rw [List.mem_singleton.mp hb]
        simp only [decide_eq_true_eq, not_and]
        intro _
        have := hcross_ts e heL
        omega
      rw [hzero, Nat.add_zero]
    · -- e is the appended last element
      rw [List.mem_singleton.mp heA]
      show (if a.event_id = a.event_id then
        some ((l.foldl lbStep ⟨fun _ => 0, fun _ => none⟩).gp (evtKey a) + 1 - 1)
        else _) = _
      rw [if_pos rfl, lbFold_gp l ⟨fun _ => 0, fun _ => none⟩ (evtKey a)]
      congr 1
      rw [List.countP_append]
      have hzero : List.countP (fun x => decide (evtKey x = evtKey a ∧
          x.event_ts_utc.instant < a.event_ts_utc.instant)) [a] = 0 := by
        rw [List.countP_eq_zero]
        intro b hb
        rw [List.mem_singleton.mp hb]
        simp
      have hsame : List.countP (fun x => decide (evtKey x = evtKey a ∧
          x.event_ts_utc.instant < a.event_ts_utc.instant)) l =
          List.countP (fun e => decide (evtKey e = evtKey a)) l := by
        apply List.countP_congr
        intro x hx
        have hlt := hcross_ts x hx
        constructor
        · intro h; simp only [decide_eq_true_eq] at h ⊢; exact h.1
        · intro h; simp only [decide_eq_true_eq] at h ⊢; exact ⟨h, hlt⟩
      rw [hzero, hsame]
      dsimp only
      omega

/-- A pairwise relation on the stored rows (preserved by the UTC
conversion) carries over to any fetch result. -/
theorem fetch_pairwise (db : DuckDB) (n : Int)
    (R : NormalizedSyntheticEvent → NormalizedSyntheticEvent → Prop)
    (hsymm : ∀ {x y}, R x y → R y x)
    (hRf : ∀ a b, R a b → R (rowToUTC a) (rowToUTC b))
    (hR : db.rows.Pairwise R) :
    (fetchSyntheticEvents db (some n)).Pairwise R := by
  unfold fetchSyntheticEvents
  split_ifs with h1 h2
  · exact List.Pairwise.nil
  · exact List.Pairwise.nil
  · dsimp only
    split_ifs with h3
    · exact List.Pairwise.nil
    · have hD : (sortEventsDesc db.rows).Pairwise R :=
        ((List.perm_insertionSort tsLeDesc db.rows).pairwise_iff
          fun hxy => hsymm hxy).mpr hR
      have htake : ((sortEventsDesc db.rows).take n.toNat).Pairwise R :=
        hD.sublist (List.take_sublist n.toNat (sortEventsDesc db.rows))
      exact htake.map rowToUTC hRf

/-- Whenever the candidate fetch is strictly larger than the window
limit, the window fetch is contained in it. -/
theorem fetch_window_subset (db : DuckDB) (wl n : Int)
    (hgt : wl < ((fetchSyntheticEvents db (some n)).length : Int)) :
    ∀ w ∈ fetchSyntheticEvents db (some wl),
      w ∈ fetchSyntheticEvents db (some n) := by
  intro w hw
  by_cases h1 : db.fileExists = false
  · rw [fetchSyntheticEvents, if_pos h1] at hw
    exact absurd hw (List.not_mem_nil w)
  by_cases h2 : db.tableExists = false
  · rw [fetchSyntheticEvents, if_neg h1, if_pos h2] at hw
    exact absurd hw (List.not_mem_nil w)
  by_cases h3 : wl ≤ 0
  · rw [fetchSyntheticEvents, if_neg h1, if_neg h2] at hw
    rw [if_pos h3] at hw
    exact absurd hw (List.not_mem_nil w)
  have h4 : ¬ n ≤ 0 := by
    intro h4
    rw [fetchSyntheticEvents, if_neg h1, if_neg h2] at hgt
    rw [if_pos h4] at hgt
    simp at hgt
    omega
  rw [fetchSyntheticEvents, if_neg h1, if_neg h2, if_neg h3] at hw
  rw [fetchSyntheticEvents, if_neg h1, if_neg h2, if_neg h4] at hgt ⊢
  have hlen : ((sortEventsDesc db.rows).take n.toNat).length ≤ n.toNat :=
    le_of_le_of_eq (List.length_take_le n.toNat _) (by rfl)
  rw [List.length_map] at hgt
  have hwl_n : wl.toNat ≤ n.toNat := by omega
  obtain ⟨x, hx, rfl⟩ := List.mem_map.mp hw
  apply List.mem_map_of_mem rowToUTC
  have hxx : x ∈ (((sortEventsDesc db.rows).take n.toNat).take wl.toNat) := by
    rw [List.take_take, min_eq_left hwl_n]
    exact hx
  exact List.take_subset wl.toNat _ hxx

/-- With the window contained in the candidate set and distinct ids and
timestamps, the source's `lookback_satisfied` coincides with the claim's
strictly-earlier-count predicate. -/
theorem lookbackSatisfied_eq_spec (ws : Int)
    (window cand : List NormalizedSyntheticEvent)
    (hsub : ∀ w ∈ window, w ∈ cand)
    (hids : cand.Pairwise (fun a b => a.event_id ≠ b.event_id))
    (hts : cand.Pairwise
      (fun a b => a.event_ts_utc.instant ≠ b.event_ts_utc.instant)) :
    lookbackSatisfied ws (window.map (·.event_id)) cand =
      specLookbackSatisfied ws window cand := by
  unfold lookbackSatisfied specLookbackSatisfied
  dsimp only
  apply all_map_congr
  intro w hw
  have hperm : (sortEventsAsc cand).Perm cand :=
    List.perm_insertionSort tsLeAsc cand
  have hidsO : (sortEventsAsc cand).Pairwise
      (fun a b => a.event_id ≠ b.event_id) :=
    (hperm.pairwise_iff fun hxy => Ne.symm hxy).mpr hids
  have htsO : (sortEventsAsc cand).Pairwise
      (fun a b => a.event_ts_utc.instant ≠ b.event_ts_utc.instant) :=
    (hperm.pairwise_iff fun hxy => Ne.symm hxy).mpr hts
  have hstrictO : (sortEventsAsc cand).Pairwise
      (fun a b => a.event_ts_utc.instant < b.event_ts_utc.instant) := by
    have hand := (List.sorted_insertionSort tsLeAsc cand).and htsO
    exact hand.imp fun hab => lt_of_le_of_ne hab.1 hab.2
  have hwO : w ∈ sortEventsAsc cand := hperm.mem_iff.mpr (hsub w hw)
  show (match (List.foldl lbStep ⟨fun _ => 0, fun _ => none⟩
      (sortEventsAsc cand)).idx w.event_id with
    | none => false
    | some c => decide (ws ≤ (c : Int))) = _
  rw [lbFold_idx (sortEventsAsc cand) hstrictO hidsO w hwO]
  show decide (ws ≤ _) = decide (ws ≤ _)
  rw [hperm.countP_eq]

/-- The source's fetch loop and the claim's fetch loop coincide on a
store with distinct event ids and distinct timestamps. -/
theorem fetchLoops_eq (db : DuckDB) (wl ws cap : Int)
    (hids : db.rows.Pairwise (fun a b => a.event_id ≠ b.event_id))
    (hts : db.rows.Pairwise
      (fun a b => a.event_ts_utc.instant ≠ b.event_ts_utc.instant)) :
    ∀ (fuel : ℕ) (n : Int),
      rollingFetchLoop db wl ws cap (fetchSyntheticEvents db (some wl)) fuel n =
        specFetchLoop db wl ws cap (fetchSyntheticEvents db (some wl)) fuel n := by
  intro fuel
  induction fuel with
  | zero => intro n; rfl
  | succ fuel ih =>
    intro n
    unfold rollingFetchLoop specFetchLoop
    dsimp only
    by_cases h1 : ((fetchSyntheticEvents db (some n)).length : Int) ≤ wl
    · rw [if_pos h1, if_pos h1]
    · rw [if_neg h1, if_neg h1]
      have hpred : lookbackSatisfied ws
          ((fetchSyntheticEvents db (some wl)).map (·.event_id))
          (fetchSyntheticEvents db (some n)) =
          specLookbackSatisfied ws (fetchSyntheticEvents db (some wl))
            (fetchSyntheticEvents db (some n)) := by
        apply lookbackSatisfied_eq_spec
        · exact fetch_window_subset db wl n (by omega)
        · exact fetch_pairwise db n _ (fun hxy => Ne.symm hxy)
            (fun a b hab => hab) hids
        · exact fetch_pairwise db n _ (fun hxy => Ne.symm hxy)
            (fun a b hab => hab) hts
      rw [hpred]
      by_cases h2 : specLookbackSatisfied ws (fetchSyntheticEvents db (some wl))
          (fetchSyntheticEvents db (some n)) = true
      · rw [if_pos h2, if_pos h2]
      · rw [if_neg h2, if_neg h2]
        by_cases h3 : cap ≤ n
        · rw [if_pos h3, if_pos h3]
        · rw [if_neg h3, if_neg h3]
          exact ih (min cap (2 * n))

/-- C3: on a store with distinct event ids (the data model's "unique
identifier" invariant) and distinct timestamps (the batch
collision-avoidance invariant), `get_events_for_rolling_window` with any
`window_limit` and any `window_size ≥ 1` computes exactly the claim's
algorithm: empty results for a non-positive window limit or an empty
store, and otherwise the doubling fetch loop from
`min(safety_cap, window_limit + window_size * 10)` that stops when the
store is exhausted, the strictly-earlier-count lookback predicate holds,
or the safety cap is reached, returning the window events with the final
fetched superset. -/
theorem rolling_window_resolver_follows_spec (db : DuckDB)
    (wl ws cap : Int) (hws : 1 ≤ ws)
    (hids : db.rows.Pairwise (fun a b => a.event_id ≠ b.event_id))
    (hts : db.rows.Pairwise
      (fun a b => a.event_ts_utc.instant ≠ b.event_ts_utc.instant)) :
    getEventsForRollingWindow db wl ws cap =
      .ok (rollingWindowSpecAlg db wl ws cap) := by
  unfold getEventsForRollingWindow rollingWindowSpecAlg
  by_cases h0 : wl ≤ 0
  · rw [if_pos h0, if_pos h0]
  · rw [if_neg h0, if_neg h0, if_neg (by omega : ¬ ws < 1)]
    dsimp only
    by_cases hempty : fetchSyntheticEvents db (some wl) = []
    · rw [if_pos hempty, if_pos hempty]
    · rw [if_neg hempty, if_neg hempty]
      rw [fetchLoops_eq db wl ws cap hids hts]

theorem rolling_window_resolver_follows_spec_witness :
    getEventsForRollingWindow demoDbC2 3 2 100 =
      .ok (rollingWindowSpecAlg demoDbC2 3 2 100) :=
  rolling_window_resolver_follows_spec demoDbC2 3 2 100 (by norm_num)
    (by decide) (by decide)
